import Mathlib

/-!
Verification development for the `fortran_code_analysis_tools` repository.

The repository is a small Python code base that statically analyzes a
directory of Fortran source files:

* `adjacency_matrix.py` : `generate_fortran_matrix` scans `.f90` files with a
  regex line scanner, collects a mapping routine-name -> raw callee list, and
  materializes a 0/1 adjacency matrix (rows = callees, columns = callers)
  over the sorted universe of declared routine names.
* `check_object.py` : `scan_fortran_directory` scans `.f90`/`.F90`/`.f95`
  files and emits an inventory of (obj_name, module_name, type) records.
* `sort_matrix.py` : `reorder_by_sum` permutes the rows of a labelled matrix
  by descending row sum and then the columns by descending column sum, using
  pandas `Series.sort_values(ascending=False)`.
* `main.py` : composes the reordered matrix with the inventory via a pandas
  left join.

This file is a shallow embedding of those operations.  Strings are modelled
as Lean `String` (a wrapper around `List Char`); all character-level
operations are written out explicitly over `List Char` so that every
definition evaluates by kernel reduction.  The scanned sources are ASCII, so
ASCII semantics of Python's `str.lower`, `\w` and `\s` are embedded.
-/

/-! ## Character classes and elementary string operations

Python `re` classes restricted to ASCII (the scanned Fortran sources are
ASCII): `\w` is `[a-zA-Z0-9_]`, `\s` is `[ \t\n\r\f\v]`.  `lowerChar` is
Python `str.lower` on ASCII. -/

/-- Python regex class `\w` (ASCII): letters, digits, underscore. -/
def isWordChar (c : Char) : Bool :=
  (65 ≤ c.toNat && c.toNat ≤ 90) || (97 ≤ c.toNat && c.toNat ≤ 122) ||
  (48 ≤ c.toNat && c.toNat ≤ 57) || c = '_'

/-- Python regex class `\s` (ASCII): space, tab, newline, carriage return,
form feed, vertical tab. -/
def isSpaceChar (c : Char) : Bool :=
  c = ' ' || c = '\t' || c = '\n' || c = '\r' || c = '\x0c' || c = '\x0b'

/-- Python `str.lower` on one ASCII character. -/
def lowerChar (c : Char) : Char :=
  if 65 ≤ c.toNat ∧ c.toNat ≤ 90 then Char.ofNat (c.toNat + 32) else c

/-- Python `str.lower` on an ASCII string. -/
def pyLower (s : String) : String := String.mk (s.data.map lowerChar)

/-- Case-insensitive comparison of one character against a lowercase pattern
character, as performed by `re.IGNORECASE` on ASCII. -/
def chMatchCI (pat c : Char) : Bool := lowerChar c = pat

/-- Case-insensitively strip the literal `pat` (given in lowercase) from the
front of `s`; return the remainder on success.  This is matching a literal
inside an `re.IGNORECASE` pattern. -/
def stripCI : List Char → List Char → Option (List Char)
  | [], s => some s
  | _ :: _, [] => none
  | p :: ps, c :: cs => if chMatchCI p c then stripCI ps cs else none

/-- Python `str.endswith` for a single suffix (exact, case-sensitive). -/
def pyEndsWith (s suffix : String) : Bool :=
  let n := s.data.length
  let m := suffix.data.length
  decide (m ≤ n) && s.data.drop (n - m) == suffix.data

/-! ## The call pattern

`adjacency_matrix.py` line 12:

  `call_pattern = re.compile(r'(?:call\s+|(?<=\W))(\w+)\s*\(', re.IGNORECASE)`

`call_pattern.findall(line)` scans the line left to right for non-overlapping
matches and returns the captured `(\w+)` groups.  The pattern matches an
identifier followed by optional whitespace and a literal `(`, where the
identifier is preceded either by the literal `call` plus whitespace or by a
non-word character (zero-width lookbehind).  The functions below embed this
scan: `matchIdentParen` is `(\w+)\s*\(` (greedy `\w+` cannot usefully
backtrack because `\w` and `\s`/`(` are disjoint), `matchCallKw` is
`call\s+` (case-insensitive, greedy `\s+`), and `tryMatch` tries the two
alternatives in the regex's order at one start position. -/

/-- Match `(\w+)\s*\(` at the head of `s`; return the captured identifier
and the remainder after the `(`. -/
def matchIdentParen (s : List Char) : Option (List Char × List Char) :=
  let ident := s.takeWhile isWordChar
  if ident.isEmpty then none
  else
    match (s.dropWhile isWordChar).dropWhile isSpaceChar with
    | '(' :: rest => some (ident, rest)
    | _ => none

/-- Match `call\s+` (case-insensitive) at the head of `s`; return the
remainder after the whitespace run. -/
def matchCallKw (s : List Char) : Option (List Char) :=
  match stripCI ['c', 'a', 'l', 'l'] s with
  | none => none
  | some rest =>
    match rest with
    | c :: _ => if isSpaceChar c then some (rest.dropWhile isSpaceChar) else none
    | [] => none

/-- Attempt the call pattern at one start position.  `prev` is the character
immediately before the position (for the `(?<=\W)` lookbehind); `none` means
start of line.  Returns the captured identifier and the remainder after the
consumed `(`. -/
def tryMatch (prev : Option Char) (s : List Char) : Option (List Char × List Char) :=
  match matchCallKw s with
  | some rest =>
    match matchIdentParen rest with
    | some r => some r
    | none =>
      match prev with
      | some p => if isWordChar p then none else matchIdentParen s
      | none => none
  | none =>
    match prev with
    | some p => if isWordChar p then none else matchIdentParen s
    | none => none

/-- The scan loop of `re.findall`: try a match at each position, capture the
group and resume after the consumed text (the character before the resume
point is the consumed `(`), otherwise advance one character.  The fuel is the
length of the remaining input; each successful match consumes at least two
characters, so `fuel = s.length` never runs out (`findCallsAux_fuel`). -/
def findCallsAux : Nat → Option Char → List Char → List (List Char)
  | 0, _, _ => []
  | _ + 1, _, [] => []
  | fuel + 1, prev, c :: rest =>
    match tryMatch prev (c :: rest) with
    | some (ident, after) => ident :: findCallsAux fuel (some '(') after
    | none => findCallsAux fuel (some c) rest

/-- `call_pattern.findall(line)`: the list of captured identifiers, in order
of occurrence. -/
def findCalls (line : String) : List String :=
  (findCallsAux line.data.length none line.data).map String.mk

/-! ## The routine / module declaration patterns

`adjacency_matrix.py` lines 10-11 and `check_object.py` lines 9-11:

  `routine_start = re.compile(r'^\s*(?:recursive\s+)?(?:subroutine|function)\s+(\w+)', re.IGNORECASE)`
  `routine_end   = re.compile(r'^\s*end\s+(?:subroutine|function)', re.IGNORECASE)`
  `routine_pattern = re.compile(r'^\s*(?:recursive\s+)?(subroutine|function)\s+(\w+)', re.IGNORECASE)`
  `module_pattern  = re.compile(r'^\s*module\s+(\w+)', re.IGNORECASE)`

All are used with `.match`, i.e. anchored at the start of the line.
`routine_start` and `routine_pattern` recognize the same lines;
`routine_pattern` additionally captures which keyword matched.  Because the
keyword is matched case-insensitively, `group(1).lower()` is the lowercase
keyword itself, so `matchRoutineDecl` returns it directly in lowercase. -/

/-- Match `(subroutine|function)\s+(\w+)` at `s`; return the lowercased
keyword and the captured identifier (original case). -/
def matchKwIdent (s : List Char) : Option (String × String) :=
  let tryKw : List Char → String → Option (String × String) := fun kw kwName =>
    match stripCI kw s with
    | none => none
    | some rest =>
      match rest with
      | c :: _ =>
        if isSpaceChar c then
          let ident := (rest.dropWhile isSpaceChar).takeWhile isWordChar
          if ident.isEmpty then none else some (kwName, String.mk ident)
        else none
      | [] => none
  match tryKw ['s', 'u', 'b', 'r', 'o', 'u', 't', 'i', 'n', 'e'] "subroutine" with
  | some r => some r
  | none => tryKw ['f', 'u', 'n', 'c', 't', 'i', 'o', 'n'] "function"

/-- `routine_pattern.match(line)`: leading whitespace, optional
`recursive\s+`, then the keyword and identifier.  If the optional `recursive`
prefix is taken but the keyword does not follow, the regex backtracks to not
taking it (which then also fails, since the text starts with `recursive`). -/
def matchRoutineDecl (line : String) : Option (String × String) :=
  let s := line.data.dropWhile isSpaceChar
  let withRec :=
    match stripCI ['r', 'e', 'c', 'u', 'r', 's', 'i', 'v', 'e'] s with
    | none => none
    | some rest =>
      match rest with
      | c :: _ => if isSpaceChar c then matchKwIdent (rest.dropWhile isSpaceChar) else none
      | [] => none
  match withRec with
  | some r => some r
  | none => matchKwIdent s

/-- `routine_start.match(line)` of `adjacency_matrix.py` (same lines as
`routine_pattern`, only the identifier is captured). -/
def matchRoutineStart (line : String) : Option String :=
  (matchRoutineDecl line).map Prod.snd

/-- `routine_end.match(line)`: `^\s*end\s+(?:subroutine|function)`. -/
def matchRoutineEnd (line : String) : Bool :=
  let s := line.data.dropWhile isSpaceChar
  match stripCI ['e', 'n', 'd'] s with
  | none => false
  | some rest =>
    match rest with
    | c :: _ =>
      isSpaceChar c &&
        (let r2 := rest.dropWhile isSpaceChar
         (stripCI ['s', 'u', 'b', 'r', 'o', 'u', 't', 'i', 'n', 'e'] r2).isSome ||
         (stripCI ['f', 'u', 'n', 'c', 't', 'i', 'o', 'n'] r2).isSome)
    | [] => false

/-- `module_pattern.match(line)`: `^\s*module\s+(\w+)`, returning the
captured identifier (original case). -/
def matchModule (line : String) : Option String :=
  let s := line.data.dropWhile isSpaceChar
  match stripCI ['m', 'o', 'd', 'u', 'l', 'e'] s with
  | none => none
  | some rest =>
    match rest with
    | c :: _ =>
      if isSpaceChar c then
        let ident := (rest.dropWhile isSpaceChar).takeWhile isWordChar
        if ident.isEmpty then none else some (String.mk ident)
      else none
    | [] => none

/-! ## Preprocessing

Both scanners first join line continuations and then split into lines
(`adjacency_matrix.py` lines 20-24, `check_object.py` lines 25-27):

  `content = re.sub(r'&\s*\n\s*', '', content)`
  `lines = content.splitlines()`

The substitution pattern matches a `&` followed by a whitespace run that
contains at least one newline; with the two greedy `\s*` around the literal
`\n` the match extends over the whole whitespace run, so the effect is:
delete each `&` whose following maximal whitespace run contains a `'\n'`
together with that whole run. -/

/-- `re.sub(r'&\s*\n\s*', '', content)` over the character list, with fuel
equal to the input length (each step consumes at least one character). -/
def joinContAux : Nat → List Char → List Char
  | 0, s => s
  | _ + 1, [] => []
  | fuel + 1, c :: rest =>
    if c = '&' ∧ '\n' ∈ rest.takeWhile isSpaceChar then
      joinContAux fuel (rest.dropWhile isSpaceChar)
    else c :: joinContAux fuel rest

/-- Join Fortran `&` line continuations, as the `re.sub` call does. -/
def joinCont (s : List Char) : List Char := joinContAux s.length s

/-- Python `str.splitlines` for `\n`-separated text (the only line
terminator occurring in the scanned sources): no entry is produced for a
trailing newline, and the empty string yields no lines. -/
def splitLinesAux : List Char → List Char → List String
  | acc, [] => if acc.isEmpty then [] else [String.mk acc.reverse]
  | acc, '\n' :: rest => String.mk acc.reverse :: splitLinesAux [] rest
  | acc, c :: rest => splitLinesAux (c :: acc) rest

/-- `content.splitlines()`. -/
def splitLines (s : String) : List String := splitLinesAux [] s.data

/-- The logical lines of one file: continuation join, then split
(`adjacency_matrix.py` lines 20-24). -/
def logicalLines (content : String) : List String :=
  splitLines (String.mk (joinCont content.data))

/-! ## The scope-tracking scanner

`generate_fortran_matrix`, lines 25-42: a per-file loop over lines keeps a
`current_routine` cursor (reset to `None` at the start of every file) and a
shared `all_routines` dict mapping each declared routine name (lowercased)
to the list of raw callees appended so far.  Python dicts preserve insertion
order and key assignment replaces the stored value in place; the dict is
modelled as an association list with unique keys. -/

/-- Python dict assignment `d[k] = v`: replace the (first) entry with key
`k` in place, or append a new entry. -/
def dictSet : List (String × List String) → String → List String → List (String × List String)
  | [], k, v => [(k, v)]
  | (k', v') :: rest, k, v =>
    if k' = k then (k, v) :: rest else (k', v') :: dictSet rest k v

/-- Python `d[k].append(c)`: append `c` to the list stored at the (first)
entry with key `k`.  In `generate_fortran_matrix` the key is always present
when this runs (the current routine was inserted by its start line), so the
missing-key case (a `KeyError` in Python) is modelled as a no-op; it is
unreachable in the embedded pipeline. -/
def dictAppend : List (String × List String) → String → String → List (String × List String)
  | [], _, _ => []
  | (k', v') :: rest, k, c =>
    if k' = k then (k', v' ++ [c]) :: rest else (k', v') :: dictAppend rest k c

/-- The scanner state: the `current_routine` cursor and the `all_routines`
dict. -/
structure ScanState where
  current : Option String
  routines : List (String × List String)
deriving DecidableEq

/-- One iteration of the line loop of `generate_fortran_matrix`
(lines 27-42): check `routine_start` (set the cursor and reset the dict
entry to the empty list), else check `routine_end` (clear the cursor);
then, if a current routine is set, append every lowercased `call_pattern`
capture other than the current routine's own name to its list. -/
def lineStep (st : ScanState) (line : String) : ScanState :=
  let st1 : ScanState :=
    match matchRoutineStart line with
    | some name =>
      let n := pyLower name
      { current := some n, routines := dictSet st.routines n [] }
    | none =>
      if matchRoutineEnd line then { st with current := none } else st
  match st1.current with
  | some cur =>
    { st1 with
      routines :=
        ((findCalls line).map pyLower).foldl
          (fun d c => if c ≠ cur then dictAppend d cur c else d) st1.routines }
  | none => st1

/-- Scan one file's logical lines, threading the shared dict; the cursor
starts unset for each file (`current_routine = None`, line 25). -/
def fileStep (d : List (String × List String)) (lines : List String) :
    List (String × List String) :=
  (lines.foldl lineStep { current := none, routines := d }).routines

/-- Scan a list of file contents in order, accumulating `all_routines`
across files (lines 17-42, restricted to the scanning itself). -/
def scanContents (contents : List String) : List (String × List String) :=
  contents.foldl (fun d content => fileStep d (logicalLines content)) []

/-! ## The call graph assembler

`generate_fortran_matrix`, lines 44-59: `universe = sorted(all_routines)`
(Python `sorted` on strings: ascending lexicographic by code point, and the
dict keys are distinct so stability is irrelevant); a DataFrame of zeros
indexed by `universe` on both axes; then for every `(caller, callees)` item
and every raw callee in the list, if the callee is in the universe, set
`matrix.at[callee, caller] = 1`. -/

/-- Ascending lexicographic comparison by code point, the string comparison
Python `sorted` uses. -/
def lexLe : List Char → List Char → Bool
  | [], _ => true
  | _ :: _, [] => false
  | a :: as, b :: bs =>
    if a.toNat < b.toNat then true
    else if b.toNat < a.toNat then false
    else lexLe as bs

/-- Python's `<=` on strings, as a relation for sorting. -/
def strLe (a b : String) : Prop := lexLe a.data b.data = true

instance : DecidableRel strLe := fun a b => by unfold strLe; infer_instance

/-- `sorted(list(all_routines.keys()))` (line 45). -/
def sortedUniverse (routines : List (String × List String)) : List String :=
  List.insertionSort strLe (routines.map Prod.fst)

/-- Set one cell of the matrix to 1 (`matrix.at[callee, caller] = 1`). -/
def matrixSet (m : String → String → Nat) (r c : String) : String → String → Nat :=
  fun r' c' => if r' = r ∧ c' = c then 1 else m r' c'

/-- The fill loop (lines 52-57) over the zero matrix (line 49): for each
`(caller, callees)` item of `all_routines` and each `callee` in the list,
if `callee in universe` then set cell `(callee, caller)` to 1. -/
def fillMatrix (routines : List (String × List String)) (univ : List String) :
    String → String → Nat :=
  routines.foldl
    (fun m p =>
      p.2.foldl (fun m' callee => if callee ∈ univ then matrixSet m' callee p.1 else m') m)
    (fun _ _ => 0)

/-- A labelled matrix, the shallow embedding of the pandas DataFrames the
scripts build: ordered row labels, ordered column labels, and a cell lookup
by label pair. -/
@[ext]
structure LabelledMatrix where
  rows : List String
  cols : List String
  entry : String → String → Nat

/-- Steps 3-5 of `generate_fortran_matrix` (lines 44-59): build the square
adjacency matrix over the sorted universe. -/
def assemble (routines : List (String × List String)) : LabelledMatrix :=
  let univ := sortedUniverse routines
  { rows := univ, cols := univ, entry := fillMatrix routines univ }

/-- A directory is modelled as the listing `os.listdir` returns: filenames
with their contents; `none` models a path that does not exist. -/
def Directory := Option (List (String × String))

/-- `generate_fortran_matrix(directory)` (lines 7-59).  The function calls
`os.listdir(directory)` without an existence check; on a missing directory
Python raises `FileNotFoundError`, modelled as `Except.error`.  Otherwise it
scans the files whose names end in `".f90"` (case-sensitive, line 18) and
assembles the matrix. -/
def generate_fortran_matrix (dir : Directory) : Except Unit LabelledMatrix :=
  match dir with
  | none => Except.error ()
  | some files =>
    Except.ok (assemble (scanContents
      ((files.filter (fun f => pyEndsWith f.1 ".f90")).map Prod.snd)))

/-! ## The routine inventory extractor

`check_object.py`, `scan_fortran_directory` (lines 6-49): if the directory
does not exist, print an error and return an empty DataFrame; otherwise scan
files ending in `".f90"`, `".F90"` or `".f95"`, with a `current_module`
cursor reset to the sentinel `"External"` at the start of each file, and
append one record per routine declaration. -/

/-- One row of the inventory DataFrame. -/
structure InventoryRecord where
  obj_name : String
  module_name : String
  kind : String
deriving DecidableEq

/-- One iteration of the line loop of `scan_fortran_directory`
(lines 31-47): a `module_pattern` match updates the cursor; a
`routine_pattern` match appends a record (both patterns are checked on every
line; no line can match both). -/
def invLineStep (st : String × List InventoryRecord) (line : String) :
    String × List InventoryRecord :=
  let m := match matchModule line with
    | some name => pyLower name
    | none => st.1
  match matchRoutineDecl line with
  | some (kind, name) => (m, st.2 ++ [⟨pyLower name, m, kind⟩])
  | none => (m, st.2)

/-- Scan one file for the inventory: cursor starts at `"External"`
(line 29). -/
def invFileStep (acc : List InventoryRecord) (lines : List String) :
    List InventoryRecord :=
  (lines.foldl invLineStep ("External", acc)).2

/-- `scan_fortran_directory(directory)` (lines 6-49). -/
def scan_fortran_directory (dir : Directory) : List InventoryRecord :=
  match dir with
  | none => []
  | some files =>
    (files.filter (fun f =>
        pyEndsWith f.1 ".f90" || pyEndsWith f.1 ".F90" || pyEndsWith f.1 ".f95")).foldl
      (fun acc f => invFileStep acc (logicalLines f.2)) []

/-! ## The connectivity reordering algorithm

`sort_matrix.py`, `reorder_by_sum` (lines 4-27), on an in-memory DataFrame:

  `row_sums = df.sum(axis=1)`
  `new_row_order = row_sums.sort_values(ascending=False).index`
  `df = df.loc[new_row_order]`
  `col_sums = df.sum(axis=0)`
  `new_col_order = col_sums.sort_values(ascending=False).index`
  `df = df[new_col_order]`

`Series.sort_values(ascending=False)` is implemented by pandas `nargsort`
(pandas/core/sorting.py): it computes an ascending `argsort` of the values
and, for a descending sort, reverses the whole indexer.  Consequently
entries with equal values appear in the output in the reverse of their input
order (the ascending argsort keeps them in input order; numpy's argsort is
an introsort that runs plain insertion sort, which is stable, on the small
partitions arising for the matrix sizes considered here).  `sortValuesDesc`
embeds exactly that: a stable ascending sort of (label, value) pairs
followed by a reversal. -/

/-- The value-ascending comparison used for the stable ascending argsort of
a pandas Series of sums. -/
def sumLe (a b : String × Nat) : Prop := a.2 ≤ b.2

instance : DecidableRel sumLe := fun a b => by unfold sumLe; infer_instance

/-- `series.sort_values(ascending=False).index` for a Series given as
(label, value) pairs in index order: stable ascending sort, then reverse
(pandas `nargsort` reverses the ascending indexer when `ascending=False`). -/
def sortValuesDesc (pairs : List (String × Nat)) : List String :=
  ((List.insertionSort sumLe pairs).reverse).map Prod.fst

/-- `df.sum(axis=1)` at row label `r`: the sum of the row over the current
columns. -/
def rowSum (M : LabelledMatrix) (r : String) : Nat :=
  (M.cols.map (fun c => M.entry r c)).sum

/-- `df.sum(axis=0)` at column label `c`, on a frame whose current row
labels are `rs`. -/
def colSumOn (rs : List String) (M : LabelledMatrix) (c : String) : Nat :=
  (rs.map (fun r => M.entry r c)).sum

/-- `reorder_by_sum` on an in-memory matrix (`sort_matrix.py` lines 11-27):
permute the rows by descending row sum, then compute the column sums on the
row-permuted frame and permute the columns by descending column sum.  Cell
values are label-addressed and unchanged. -/
def reorder_by_sum (M : LabelledMatrix) : LabelledMatrix :=
  let newRows := sortValuesDesc (M.rows.map (fun r => (r, rowSum M r)))
  let M1 : LabelledMatrix := { M with rows := newRows }
  let newCols := sortValuesDesc (M1.cols.map (fun c => (c, colSumOn M1.rows M1 c)))
  { M1 with cols := newCols }

/-- The independent-permutations variant described by the specification
("an implementer may compute both sums from the original unpermuted matrix
and apply permutations independently"): both the row order and the column
order are computed from the original matrix.  This definition follows the
specification's words; `reorder_by_sum` above follows the code. -/
def reorderIndependent (M : LabelledMatrix) : LabelledMatrix :=
  { rows := sortValuesDesc (M.rows.map (fun r => (r, rowSum M r))),
    cols := sortValuesDesc (M.cols.map (fun c => (c, colSumOn M.rows M c))),
    entry := M.entry }

/-! ## The report composer

`main.py`, lines 46-75: insert a leading `total_connectivity` column (the
row sums of the reordered matrix), then left-join the matrix with
`inventory_df.set_index('obj_name')[['module_name', 'type']]` by row label.
A pandas left join fills `NaN` for rows with no match in the right table;
`NaN` is modelled as `Option.none`.  (When the inventory has a unique record
per `obj_name`, as a lookup of the first matching record.) -/

/-- The `module_name` and `type` columns joined onto one matrix row label:
the first inventory record with that `obj_name`, or `NaN`s if there is
none. -/
def annotateRow (inv : List InventoryRecord) (r : String) :
    Option String × Option String :=
  match inv.find? (fun rec => rec.obj_name = r) with
  | some rec => (some rec.module_name, some rec.kind)
  | none => (none, none)

/-- The extended matrix rows of `main.py` (lines 46-72), keeping the columns
relevant to the join: for each row label of the reordered matrix, the label,
the joined `module_name` and `type` (possibly `NaN`), and its
`total_connectivity` row sum. -/
def composeExtended (M : LabelledMatrix) (inv : List InventoryRecord) :
    List (String × Option String × Option String × Nat) :=
  M.rows.map (fun r => (r, (annotateRow inv r).1, (annotateRow inv r).2, rowSum M r))

/-! ## Helper lemmas: the routines dict -/

lemma lookup_dictSet_self (d : List (String × List String)) (k : String) (v : List String) :
    (dictSet d k v).lookup k = some v := by
  induction d with
  | nil => simp [dictSet, List.lookup]
  | cons p rest ih =>
    obtain ⟨k', v'⟩ := p
    by_cases h : k' = k
    · simp [dictSet, h, List.lookup]
    · simp only [dictSet, if_neg h, List.lookup]
      have : (k == k') = false := by simp [Ne.symm h]
      simp [this, ih]

lemma lookup_dictAppend_self (d : List (String × List String)) (k : String) (c : String)
    (v : List String) (h : d.lookup k = some v) :
    (dictAppend d k c).lookup k = some (v ++ [c]) := by
  induction d with
  | nil => simp [List.lookup] at h
  | cons p rest ih =>
    obtain ⟨k', v'⟩ := p
    by_cases hk : k' = k
    · subst hk
      simp only [List.lookup, beq_self_eq_true] at h
      simp only [dictAppend, if_pos rfl, List.lookup, beq_self_eq_true]
      simp at h
      simp [h]
    · have hne : (k == k') = false := by simp [Ne.symm hk]
      simp only [List.lookup, hne] at h
      simp only [dictAppend, if_neg hk, List.lookup, hne]
      exact ih h

lemma mem_dictSet (d : List (String × List String)) (k : String) (v : List String)
    (p : String × List String) (hp : p ∈ dictSet d k v) : p = (k, v) ∨ p ∈ d := by
  induction d with
  | nil => simpa [dictSet] using hp
  | cons q rest ih =>
    obtain ⟨k', v'⟩ := q
    by_cases h : k' = k
    · simp only [dictSet, if_pos h] at hp
      rcases List.mem_cons.mp hp with h1 | h1
      · exact Or.inl h1
      · exact Or.inr (List.mem_cons_of_mem _ h1)
    · simp only [dictSet, if_neg h] at hp
      rcases List.mem_cons.mp hp with h1 | h1
      · exact Or.inr (by simp [h1])
      · rcases ih h1 with h2 | h2
        · exact Or.inl h2
        · exact Or.inr (List.mem_cons_of_mem _ h2)

lemma mem_dictAppend (d : List (String × List String)) (k c : String)
    (p : String × List String) (hp : p ∈ dictAppend d k c) :
    p ∈ d ∨ ∃ v, (k, v) ∈ d ∧ p = (k, v ++ [c]) := by
  induction d with
  | nil => simp [dictAppend] at hp
  | cons q rest ih =>
    obtain ⟨k', v'⟩ := q
    by_cases h : k' = k
    · subst h
      simp only [dictAppend, if_pos rfl] at hp
      rcases List.mem_cons.mp hp with h1 | h1
      · exact Or.inr ⟨v', by simp, h1⟩
      · exact Or.inl (List.mem_cons_of_mem _ h1)
    · simp only [dictAppend, if_neg h] at hp
      rcases List.mem_cons.mp hp with h1 | h1
      · exact Or.inl (by simp [h1])
      · rcases ih h1 with h2 | h2
        · exact Or.inl (List.mem_cons_of_mem _ h2)
        · obtain ⟨v, hv, hpv⟩ := h2
          exact Or.inr ⟨v, List.mem_cons_of_mem _ hv, hpv⟩

/-- The appending loop over one line's calls, observed at the current
routine's key. -/
lemma lookup_foldl_append (calls : List String) (d : List (String × List String))
    (r : String) (cs0 : List String) (h : d.lookup r = some cs0) :
    (calls.foldl (fun d' c => if c ≠ r then dictAppend d' r c else d') d).lookup r
      = some (cs0 ++ calls.filter (fun c => c != r)) := by
  induction calls generalizing d cs0 with
  | nil => simpa using h
  | cons c cs ih =>
    by_cases hc : c = r
    · subst hc
      simp only [List.foldl_cons, List.filter_cons]
      rw [if_neg (show ¬(c ≠ c) by simp)]
      have hb : (c != c) = false := by simp
      rw [hb]
      simpa using ih d cs0 h
    · simp only [List.foldl_cons, if_pos hc, List.filter_cons]
      have : (c != r) = true := by simpa using hc
      rw [this]
      have h2 := lookup_dictAppend_self d r c cs0 h
      have := ih (dictAppend d r c) (cs0 ++ [c]) h2
      simpa [List.append_assoc] using this

/-! ## Helper lemmas: the self-call invariant of the scanner -/

/-- No routine's raw callee list contains the routine's own name. -/
def SelfFree (d : List (String × List String)) : Prop := ∀ p ∈ d, p.1 ∉ p.2

lemma selfFree_dictSet_nil (d : List (String × List String)) (k : String)
    (h : SelfFree d) : SelfFree (dictSet d k []) := by
  intro p hp
  rcases mem_dictSet d k [] p hp with h1 | h1
  · subst h1; simp
  · exact h p h1

lemma selfFree_dictAppend (d : List (String × List String)) (k c : String)
    (h : SelfFree d) (hkc : c ≠ k) : SelfFree (dictAppend d k c) := by
  intro p hp
  rcases mem_dictAppend d k c p hp with h1 | h1
  · exact h p h1
  · obtain ⟨v, hv, hpv⟩ := h1
    subst hpv
    intro hmem
    rcases List.mem_append.mp hmem with h2 | h2
    · exact h _ hv h2
    · simp at h2
      exact hkc h2.symm

lemma selfFree_foldl_append (calls : List String) (d : List (String × List String))
    (cur : String) (h : SelfFree d) :
    SelfFree (calls.foldl (fun d' c => if c ≠ cur then dictAppend d' cur c else d') d) := by
  induction calls generalizing d with
  | nil => exact h
  | cons c cs ih =>
    rw [List.foldl_cons]
    by_cases hc : c ≠ cur
    · rw [if_pos hc]
      exact ih _ (selfFree_dictAppend d cur c h hc)
    · rw [if_neg hc]
      exact ih _ h

lemma selfFree_lineStep (st : ScanState) (line : String)
    (h : SelfFree st.routines) : SelfFree (lineStep st line).routines := by
  unfold lineStep
  rcases hs : matchRoutineStart line with _ | name
  · simp only
    by_cases he : matchRoutineEnd line
    · simp only [if_pos he]
      rcases hc : st.current with _ | cur
      · exact h
      · exact h
    · simp only [if_neg he]
      rcases hc : st.current with _ | cur
      · simpa [hc] using h
      · simp only [hc]
        exact selfFree_foldl_append _ _ _ h
  · simp only
    exact selfFree_foldl_append _ _ _ (selfFree_dictSet_nil _ _ h)

lemma selfFree_fileStep (d : List (String × List String)) (lines : List String)
    (h : SelfFree d) : SelfFree (fileStep d lines) := by
  unfold fileStep
  have aux : ∀ (ls : List String) (st : ScanState), SelfFree st.routines →
      SelfFree (ls.foldl lineStep st).routines := by
    intro ls
    induction ls with
    | nil => intro st hst; exact hst
    | cons l ls ih =>
      intro st hst
      rw [List.foldl_cons]
      exact ih _ (selfFree_lineStep st l hst)
  exact aux lines ⟨none, d⟩ h

lemma selfFree_scanContents (contents : List String) : SelfFree (scanContents contents) := by
  unfold scanContents
  have aux : ∀ (cs : List String) (d : List (String × List String)), SelfFree d →
      SelfFree (cs.foldl (fun d' content => fileStep d' (logicalLines content)) d) := by
    intro cs
    induction cs with
    | nil => intro d hd; exact hd
    | cons c cs ih =>
      intro d hd
      rw [List.foldl_cons]
      exact ih _ (selfFree_fileStep _ _ hd)
  exact aux contents [] (by intro p hp; simp at hp)

/-! ## Helper lemmas: the matrix fill -/

lemma foldl_matrixSet_inner_eq_one_iff (callees : List String) (univ : List String)
    (caller : String) (m : String → String → Nat) (r c : String) :
    (callees.foldl (fun m' x => if x ∈ univ then matrixSet m' x caller else m') m) r c = 1
      ↔ m r c = 1 ∨ (r ∈ callees ∧ r ∈ univ ∧ c = caller) := by
  induction callees generalizing m with
  | nil => simp
  | cons x xs ih =>
    rw [List.foldl_cons]
    by_cases hx : x ∈ univ
    · rw [if_pos hx, ih]
      unfold matrixSet
      by_cases hrc : r = x ∧ c = caller
      · obtain ⟨h1, h2⟩ := hrc
        subst h1
        subst h2
        simp [hx]
      · rw [if_neg hrc]
        constructor
        · rintro (h1 | ⟨h2, h3, h4⟩)
          · exact Or.inl h1
          · exact Or.inr ⟨List.mem_cons_of_mem _ h2, h3, h4⟩
        · rintro (h1 | ⟨h2, h3, h4⟩)
          · exact Or.inl h1
          · rcases List.mem_cons.mp h2 with h5 | h5
            · exact absurd ⟨h5, h4⟩ hrc
            · exact Or.inr ⟨h5, h3, h4⟩
    · rw [if_neg hx, ih]
      constructor
      · rintro (h1 | ⟨h2, h3, h4⟩)
        · exact Or.inl h1
        · exact Or.inr ⟨List.mem_cons_of_mem _ h2, h3, h4⟩
      · rintro (h1 | ⟨h2, h3, h4⟩)
        · exact Or.inl h1
        · rcases List.mem_cons.mp h2 with h5 | h5
          · exact absurd (h5 ▸ h3) hx
          · exact Or.inr ⟨h5, h3, h4⟩

lemma foldl_fill_eq_one_iff (routines : List (String × List String)) (univ : List String)
    (m : String → String → Nat) (r c : String) :
    (routines.foldl
        (fun m' p => p.2.foldl
          (fun m'' x => if x ∈ univ then matrixSet m'' x p.1 else m'') m') m) r c = 1
      ↔ m r c = 1 ∨ ∃ p ∈ routines, c = p.1 ∧ r ∈ p.2 ∧ r ∈ univ := by
  induction routines generalizing m with
  | nil => simp
  | cons q qs ih =>
    rw [List.foldl_cons, ih, foldl_matrixSet_inner_eq_one_iff]
    constructor
    · intro h1
      rcases h1 with (h1 | ⟨h2, h3, h4⟩) | h1
      · exact Or.inl h1
      · exact Or.inr ⟨q, by simp, h4, h2, h3⟩
      · obtain ⟨p, hp, h5⟩ := h1
        exact Or.inr ⟨p, List.mem_cons_of_mem _ hp, h5⟩
    · intro h1
      rcases h1 with h1 | ⟨p, hp, h5, h6, h7⟩
      · exact Or.inl (Or.inl h1)
      · rcases List.mem_cons.mp hp with h8 | h8
        · subst h8
          exact Or.inl (Or.inr ⟨h6, h7, h5⟩)
        · exact Or.inr ⟨p, h8, h5, h6, h7⟩

lemma fillMatrix_eq_one_iff (routines : List (String × List String)) (univ : List String)
    (r c : String) :
    fillMatrix routines univ r c = 1
      ↔ ∃ p ∈ routines, c = p.1 ∧ r ∈ p.2 ∧ r ∈ univ := by
  unfold fillMatrix
  rw [foldl_fill_eq_one_iff]
  simp

lemma foldl_matrixSet_inner_zero_or_one (callees : List String) (univ : List String)
    (caller : String) (m : String → String → Nat) (r c : String)
    (h : m r c = 0 ∨ m r c = 1) :
    (callees.foldl (fun m' x => if x ∈ univ then matrixSet m' x caller else m') m) r c = 0 ∨
    (callees.foldl (fun m' x => if x ∈ univ then matrixSet m' x caller else m') m) r c = 1 := by
  induction callees generalizing m with
  | nil => exact h
  | cons x xs ih =>
    rw [List.foldl_cons]
    by_cases hx : x ∈ univ
    · rw [if_pos hx]
      refine ih _ ?_
      unfold matrixSet
      by_cases hrc : r = x ∧ c = caller
      · rw [if_pos hrc]; exact Or.inr rfl
      · rw [if_neg hrc]; exact h
    · rw [if_neg hx]
      exact ih _ h

lemma fillMatrix_zero_or_one (routines : List (String × List String)) (univ : List String)
    (r c : String) :
    fillMatrix routines univ r c = 0 ∨ fillMatrix routines univ r c = 1 := by
  unfold fillMatrix
  have aux : ∀ (qs : List (String × List String)) (m : String → String → Nat),
      (m r c = 0 ∨ m r c = 1) →
      (qs.foldl (fun m' p => p.2.foldl
          (fun m'' x => if x ∈ univ then matrixSet m'' x p.1 else m'') m') m) r c = 0 ∨
      (qs.foldl (fun m' p => p.2.foldl
          (fun m'' x => if x ∈ univ then matrixSet m'' x p.1 else m'') m') m) r c = 1 := by
    intro qs
    induction qs with
    | nil => intro m hm; exact hm
    | cons q qs ih =>
      intro m hm
      rw [List.foldl_cons]
      exact ih _ (foldl_matrixSet_inner_zero_or_one _ _ _ _ _ _ hm)
  exact aux routines _ (Or.inl rfl)

/-! ## Helper lemmas: the sorted universe and association lookup -/

lemma lexLe_total (a b : List Char) : lexLe a b = true ∨ lexLe b a = true := by
  induction a generalizing b with
  | nil => exact Or.inl rfl
  | cons x xs ih =>
    cases b with
    | nil => exact Or.inr rfl
    | cons y ys =>
      unfold lexLe
      rcases Nat.lt_trichotomy x.toNat y.toNat with h | h | h
      · left
        rw [if_pos h]
      · rw [if_neg (by omega), if_neg (by omega), if_neg (by omega), if_neg (by omega)]
        exact ih ys
      · right
        rw [if_pos h]

lemma lexLe_trans (a b c : List Char) (hab : lexLe a b = true) (hbc : lexLe b c = true) :
    lexLe a c = true := by
  induction a generalizing b c with
  | nil => rfl
  | cons x xs ih =>
    cases b with
    | nil => exact absurd hab (by simp [lexLe])
    | cons y ys =>
      cases c with
      | nil => exact absurd hbc (by simp [lexLe])
      | cons z zs =>
        unfold lexLe at hab hbc ⊢
        by_cases hxy : x.toNat < y.toNat
        · by_cases hyz : y.toNat < z.toNat
          · rw [if_pos (by omega)]
          · rw [if_neg hyz] at hbc
            by_cases hzy : z.toNat < y.toNat
            · rw [if_pos hzy] at hbc
              exact absurd hbc (by simp)
            · rw [if_pos (by omega)]
        · rw [if_neg hxy] at hab
          by_cases hyx : y.toNat < x.toNat
          · rw [if_pos hyx] at hab
            exact absurd hab (by simp)
          · rw [if_neg hyx] at hab
            by_cases hyz : y.toNat < z.toNat
            · rw [if_pos (by omega)]
            · rw [if_neg hyz] at hbc
              by_cases hzy : z.toNat < y.toNat
              · rw [if_pos hzy] at hbc
                exact absurd hbc (by simp)
              · rw [if_neg hzy] at hbc
                rw [if_neg (by omega), if_neg (by omega)]
                exact ih ys zs hab hbc

instance : IsTotal String strLe :=
  ⟨fun a b => lexLe_total a.data b.data⟩

instance : IsTrans String strLe :=
  ⟨fun a b c => lexLe_trans a.data b.data c.data⟩

lemma sortedUniverse_perm (rs : List (String × List String)) :
    List.Perm (sortedUniverse rs) (rs.map Prod.fst) :=
  List.perm_insertionSort strLe (rs.map Prod.fst)

lemma mem_sortedUniverse (rs : List (String × List String)) (x : String) :
    x ∈ sortedUniverse rs ↔ x ∈ rs.map Prod.fst :=
  (sortedUniverse_perm rs).mem_iff

lemma sortedUniverse_sorted (rs : List (String × List String)) :
    List.Sorted strLe (sortedUniverse rs) :=
  List.sorted_insertionSort strLe (rs.map Prod.fst)

/-- With pairwise-distinct keys, association-list lookup finds exactly the
pairs present in the list. -/
lemma lookup_eq_some_iff_mem (d : List (String × List String))
    (hnd : (d.map Prod.fst).Nodup) (k : String) (v : List String) :
    d.lookup k = some v ↔ (k, v) ∈ d := by
  induction d with
  | nil => simp [List.lookup]
  | cons p rest ih =>
    obtain ⟨k', v'⟩ := p
    simp only [List.map_cons, List.nodup_cons] at hnd
    by_cases hk : k = k'
    · subst hk
      simp only [List.lookup, beq_self_eq_true]
      constructor
      · intro h
        simp at h
        simp [h]
      · intro h
        rcases List.mem_cons.mp h with h1 | h1
        · simp at h1
          simp [h1]
        · exact absurd (List.mem_map_of_mem Prod.fst h1) hnd.1
    · have hne : (k == k') = false := by simp [hk]
      simp only [List.lookup, hne]
      rw [ih hnd.2]
      constructor
      · exact fun h => List.mem_cons_of_mem _ h
      · intro h
        rcases List.mem_cons.mp h with h1 | h1
        · exact absurd (congrArg Prod.fst h1) hk
        · exact h1

/-! ## Helper lemmas: reordering -/

lemma sortValuesDesc_perm (pairs : List (String × Nat)) :
    List.Perm (sortValuesDesc pairs) (pairs.map Prod.fst) := by
  unfold sortValuesDesc
  exact ((List.insertionSort sumLe pairs).reverse_perm.trans
    (List.perm_insertionSort sumLe pairs)).map Prod.fst

lemma sortValuesDesc_tag_perm (rs : List String) (f : String → Nat) :
    List.Perm (sortValuesDesc (rs.map (fun r => (r, f r)))) rs := by
  have h := sortValuesDesc_perm (rs.map (fun r => (r, f r)))
  rw [List.map_map] at h
  have h2 : rs.map (Prod.fst ∘ fun r => (r, f r)) = rs := by
    rw [show (Prod.fst ∘ fun r => (r, f r)) = id from rfl, List.map_id]
  rwa [h2] at h

lemma colSumOn_perm (rs rs' : List String) (M : LabelledMatrix) (c : String)
    (h : List.Perm rs rs') : colSumOn rs M c = colSumOn rs' M c :=
  (h.map (fun r => M.entry r c)).sum_eq

/-! ## Helper lemmas: soundness of the call-pattern scan

Every identifier captured by the embedded `findall` occurs in the scanned
text as a nonempty run of word characters followed by optional whitespace
and an opening parenthesis. -/

lemma stripCI_sound (pat : List Char) : ∀ s r, stripCI pat s = some r →
    ∃ pre, s = pre ++ r := by
  induction pat with
  | nil =>
    intro s r h
    simp only [stripCI, Option.some.injEq] at h
    exact ⟨[], by simp [h]⟩
  | cons p ps ih =>
    intro s r h
    cases s with
    | nil => simp [stripCI] at h
    | cons c cs =>
      simp only [stripCI] at h
      by_cases hc : chMatchCI p c
      · rw [if_pos hc] at h
        obtain ⟨pre, hpre⟩ := ih cs r h
        exact ⟨c :: pre, by simp [hpre]⟩
      · rw [if_neg hc] at h
        exact absurd h (by simp)

lemma matchIdentParen_sound (s i after : List Char)
    (h : matchIdentParen s = some (i, after)) :
    ∃ ws, s = i ++ ws ++ '(' :: after ∧ i ≠ [] ∧
      (∀ c ∈ i, isWordChar c = true) ∧ (∀ c ∈ ws, isSpaceChar c = true) := by
  unfold matchIdentParen at h
  by_cases hemp : (s.takeWhile isWordChar).isEmpty
  · rw [if_pos hemp] at h
    exact absurd h (by simp)
  · rw [if_neg hemp] at h
    split at h
    · rename_i rest heq
      simp only [Option.some.injEq, Prod.mk.injEq] at h
      obtain ⟨hi, hafter⟩ := h
      refine ⟨(s.dropWhile isWordChar).takeWhile isSpaceChar, ?_, ?_, ?_, ?_⟩
      · have h1 : s.dropWhile isWordChar =
            (s.dropWhile isWordChar).takeWhile isSpaceChar ++ '(' :: after := by
          conv_lhs => rw [← List.takeWhile_append_dropWhile isSpaceChar (s.dropWhile isWordChar)]
          rw [heq, hafter]
        have h2 : s = i ++ s.dropWhile isWordChar := by
          conv_lhs => rw [← List.takeWhile_append_dropWhile isWordChar s]
          rw [hi]
        conv_lhs => rw [h2, h1]
        rw [List.append_assoc]
      · intro hi0
        rw [← hi] at hi0
        simp [hi0] at hemp
      · intro c hc
        rw [← hi] at hc
        exact List.mem_takeWhile_imp hc
      · intro c hc
        exact List.mem_takeWhile_imp hc
    · exact absurd h (by simp)

lemma matchCallKw_sound (s r : List Char) (h : matchCallKw s = some r) :
    ∃ pre, s = pre ++ r := by
  unfold matchCallKw at h
  split at h
  · exact absurd h (by simp)
  · rename_i rest hstrip
    rcases rest with _ | ⟨c, cs⟩
    · exact absurd h (by simp at h)
    · dsimp only at h
      by_cases hc : isSpaceChar c
      · rw [if_pos hc] at h
        simp only [Option.some.injEq] at h
        obtain ⟨pre0, hpre0⟩ := stripCI_sound _ _ _ hstrip
        refine ⟨pre0 ++ (c :: cs).takeWhile isSpaceChar, ?_⟩
        rw [hpre0]
        conv_lhs => rw [← List.takeWhile_append_dropWhile isSpaceChar (c :: cs)]
        rw [h, List.append_assoc]
      · rw [if_neg hc] at h
        exact absurd h (by simp)

lemma tryMatch_sound (prev : Option Char) (s : List Char) (i after : List Char)
    (h : tryMatch prev s = some (i, after)) :
    ∃ pre ws, s = pre ++ i ++ ws ++ '(' :: after ∧ i ≠ [] ∧
      (∀ c ∈ i, isWordChar c = true) ∧ (∀ c ∈ ws, isSpaceChar c = true) := by
  unfold tryMatch at h
  have fromIdent : matchIdentParen s = some (i, after) →
      ∃ pre ws, s = pre ++ i ++ ws ++ '(' :: after ∧ i ≠ [] ∧
        (∀ c ∈ i, isWordChar c = true) ∧ (∀ c ∈ ws, isSpaceChar c = true) := by
    intro hm
    obtain ⟨ws, hws, hne, hword, hspace⟩ := matchIdentParen_sound s i after hm
    exact ⟨[], ws, by simp only [List.nil_append]; exact hws, hne, hword, hspace⟩
  split at h
  · rename_i rest hkw
    split at h
    · rename_i p hp
      simp only [Option.some.injEq] at h
      obtain ⟨pre0, hpre0⟩ := matchCallKw_sound s rest hkw
      obtain ⟨ws, hws, hne, hword, hspace⟩ := matchIdentParen_sound rest i after (h ▸ hp)
      refine ⟨pre0, ws, ?_, hne, hword, hspace⟩
      rw [hpre0, hws]
      simp [List.append_assoc]
    · split at h
      · rename_i p
        split at h
        · exact absurd h (by simp)
        · exact fromIdent h
      · exact absurd h (by simp)
  · split at h
    · rename_i p
      split at h
      · exact absurd h (by simp)
      · exact fromIdent h
    · exact absurd h (by simp)

lemma findCallsAux_sound (fuel : Nat) :
    ∀ (prev : Option Char) (s i : List Char), i ∈ findCallsAux fuel prev s →
      ∃ pre ws post, s = pre ++ i ++ ws ++ '(' :: post ∧ i ≠ [] ∧
        (∀ c ∈ i, isWordChar c = true) ∧ (∀ c ∈ ws, isSpaceChar c = true) := by
  induction fuel with
  | zero =>
    intro prev s i h
    simp [findCallsAux] at h
  | succ fuel ih =>
    intro prev s i h
    cases s with
    | nil => simp [findCallsAux] at h
    | cons c rest =>
      rw [findCallsAux] at h
      split at h
      · rename_i ident after hmatch
        rcases List.mem_cons.mp h with h1 | h1
        · subst h1
          obtain ⟨pre, ws, hs, hne, hword, hspace⟩ :=
            tryMatch_sound prev (c :: rest) i after hmatch
          exact ⟨pre, ws, after, hs, hne, hword, hspace⟩
        · obtain ⟨pre0, ws0, hafter0, hne0, hword0, hspace0⟩ := tryMatch_sound _ _ _ _ hmatch
          obtain ⟨pre, ws, post, hs, hne, hword, hspace⟩ := ih _ _ _ h1
          refine ⟨pre0 ++ ident ++ ws0 ++ '(' :: pre, ws, post, ?_, hne, hword, hspace⟩
          rw [hafter0, hs]
          simp [List.append_assoc]
      · obtain ⟨pre, ws, post, hs, hne, hword, hspace⟩ := ih _ _ _ h
        refine ⟨c :: pre, ws, post, ?_, hne, hword, hspace⟩
        rw [hs]
        simp

/-- Soundness of the embedded `findall` at the string level: every captured
callee is a nonempty identifier occurring in the line, followed by optional
whitespace and an opening parenthesis. -/
lemma findCalls_sound (line : String) (name : String) (h : name ∈ findCalls line) :
    ∃ pre ws post, line.data = pre ++ name.data ++ ws ++ '(' :: post ∧
      name.data ≠ [] ∧ (∀ c ∈ name.data, isWordChar c = true) ∧
      (∀ c ∈ ws, isSpaceChar c = true) := by
  unfold findCalls at h
  obtain ⟨i, hi, hname⟩ := List.mem_map.mp h
  obtain ⟨pre, ws, post, hs, hne, hword, hspace⟩ :=
    findCallsAux_sound line.data.length none line.data i hi
  subst hname
  exact ⟨pre, ws, post, hs, hne, hword, hspace⟩

/-! ## Helper lemmas: adequacy of the scan fuel -/

lemma tryMatch_length (prev : Option Char) (s i after : List Char)
    (h : tryMatch prev s = some (i, after)) : after.length < s.length := by
  obtain ⟨pre, ws, hs, hne, _, _⟩ := tryMatch_sound prev s i after h
  rw [hs]
  have hi : 0 < i.length := List.length_pos.mpr hne
  simp only [List.length_append, List.length_cons]
  omega

lemma findCallsAux_nil (fuel : Nat) (prev : Option Char) :
    findCallsAux fuel prev [] = [] := by
  cases fuel <;> rfl

/-- The scan result does not depend on the fuel as long as the fuel is at
least the length of the remaining input; in particular `fuel = s.length` in
`findCalls` reproduces the unbounded scan of `re.findall`. -/
lemma findCallsAux_fuel (fuel : Nat) : ∀ (fuel' : Nat) (prev : Option Char) (s : List Char),
    s.length ≤ fuel → s.length ≤ fuel' →
    findCallsAux fuel prev s = findCallsAux fuel' prev s := by
  induction fuel with
  | zero =>
    intro fuel' prev s h h'
    have hs : s = [] := List.length_eq_zero.mp (Nat.le_zero.mp h)
    subst hs
    rw [findCallsAux_nil, findCallsAux_nil]
  | succ fuel ih =>
    intro fuel' prev s h h'
    cases s with
    | nil => rw [findCallsAux_nil, findCallsAux_nil]
    | cons c rest =>
      cases fuel' with
      | zero => simp at h'
      | succ fuel2 =>
        simp only [findCallsAux]
        rcases htm : tryMatch prev (c :: rest) with _ | ⟨i, after⟩
        · simp only [htm]
          have h1 : rest.length ≤ fuel := by simp at h; omega
          have h2 : rest.length ≤ fuel2 := by simp at h'; omega
          exact ih fuel2 (some c) rest h1 h2
        · simp only [htm]
          have hlt := tryMatch_length prev (c :: rest) i after htm
          have h1 : after.length ≤ fuel := by simp at h hlt; omega
          have h2 : after.length ≤ fuel2 := by simp at h' hlt; omega
          exact congrArg (i :: ·) (ih fuel2 (some '(') after h1 h2)

/-! ## Helper lemmas: the per-line scanner step -/

/-- A line that matches neither the routine-start nor the routine-end
pattern, processed while a routine is current: the recorded list of the
current routine grows by exactly the lowercased call-pattern captures other
than the routine's own name, in order. -/
lemma lineStep_plain_lookup (st : ScanState) (line : String) (r : String)
    (cs0 : List String) (h1 : matchRoutineStart line = none)
    (h2 : matchRoutineEnd line = false) (h3 : st.current = some r)
    (h4 : st.routines.lookup r = some cs0) :
    ((lineStep st line).routines).lookup r
      = some (cs0 ++ ((findCalls line).map pyLower).filter (fun c => c != r)) := by
  unfold lineStep
  rw [h1]
  simp only [h2, Bool.false_eq_true, if_false, h3]
  exact lookup_foldl_append _ _ _ _ h4

/-- A routine-start line: the dict entry of the (lowercased) declared name
is reset to empty and then receives exactly the line's own call-pattern
captures other than the name itself, regardless of any earlier content. -/
lemma lineStep_start_lookup (st : ScanState) (line : String) (name : String)
    (hs : matchRoutineStart line = some name) :
    ((lineStep st line).routines).lookup (pyLower name)
      = some (((findCalls line).map pyLower).filter (fun c => c != pyLower name)) := by
  unfold lineStep
  rw [hs]
  simp only
  have h0 : (dictSet st.routines (pyLower name) []).lookup (pyLower name) = some [] :=
    lookup_dictSet_self st.routines (pyLower name) []
  have := lookup_foldl_append ((findCalls line).map pyLower)
    (dictSet st.routines (pyLower name) []) (pyLower name) [] h0
  simpa using this

/-! # Claim theorems -/

/-- A 2x2 all-zero matrix: both row sums and both column sums are equal, so
every label pair is a tie for the reordering. -/
def tieMatrix : LabelledMatrix := ⟨["a", "b"], ["a", "b"], fun _ _ => 0⟩

/-- Claim C1.  The claim states that `reorder_by_sum` uses a stable order:
labels with equal sums keep their relative input order.  The code violates
this: pandas `sort_values(ascending=False)` reverses an ascending argsort,
so on the all-zero matrix (all sums equal) the row labels `["a", "b"]` come
out as `["b", "a"]` and likewise the columns, instead of the claimed stable
`["a", "b"]`.  (The output is still deterministic.) -/
theorem claim_C1_ties_reversed :
    (reorder_by_sum tieMatrix).rows = ["b", "a"] ∧
    (reorder_by_sum tieMatrix).cols = ["b", "a"] := by
  decide

/-- The scanner state used for the C2 counterexample: the cursor is on
routine `bar`, whose recorded callee list is empty. -/
def c2State : ScanState := ⟨some "bar", [("bar", [])]⟩

/-- Claim C2, counterexample.  The claim states that an identifier
immediately preceded by the keyword `call` and whitespace is recorded as a
raw callee *with no parenthesis required*.  Processing the line `call foo`
with current routine `bar` records nothing: the call pattern requires a
parenthesis after the identifier in both alternatives. -/
theorem claim_C2_counterexample :
    ((lineStep c2State "call foo").routines).lookup "bar" = some [] := by
  decide

/-- Claim C2, amended.  For every logical line matching neither the
routine-start nor the routine-end pattern, processed while a current routine
is set: the current routine's recorded list grows by exactly the lowercased
call-pattern captures of the line other than the routine's own name, in
order; and every such capture is a nonempty identifier that occurs in the
line followed by optional whitespace and an opening parenthesis (so an
identifier after `call` with no following parenthesis is never recorded). -/
theorem claim_C2_amended (st : ScanState) (line : String) (r : String)
    (cs0 : List String) (h1 : matchRoutineStart line = none)
    (h2 : matchRoutineEnd line = false) (h3 : st.current = some r)
    (h4 : st.routines.lookup r = some cs0) :
    ((lineStep st line).routines).lookup r
      = some (cs0 ++ ((findCalls line).map pyLower).filter (fun c => c != r)) ∧
    ∀ name ∈ findCalls line, ∃ pre ws post,
      line.data = pre ++ name.data ++ ws ++ '(' :: post ∧ name.data ≠ [] ∧
      (∀ ch ∈ name.data, isWordChar ch = true) ∧
      (∀ ch ∈ ws, isSpaceChar ch = true) :=
  ⟨lineStep_plain_lookup st line r cs0 h1 h2 h3 h4,
   fun name hn => findCalls_sound line name hn⟩

/-- The scanner state used for the C2 witness: cursor on routine `alpha`
with an empty recorded list. -/
def w2State : ScanState := ⟨some "alpha", [("alpha", [])]⟩

/-- Witness for `claim_C2_amended`: on the line
`  x = beta(1) + gamma (2)` with current routine `alpha`, exactly `beta` and
`gamma` are recorded. -/
theorem claim_C2_witness :
    ((lineStep w2State "  x = beta(1) + gamma (2)").routines).lookup "alpha"
      = some ["beta", "gamma"] :=
  ((claim_C2_amended w2State "  x = beta(1) + gamma (2)" "alpha" []
    (by decide) (by decide) rfl (by decide)).1).trans (by decide)

/-- Claim C3.  For a raw-callee mapping with pairwise-distinct routine
names, the assembled adjacency matrix is square (identical row and column
label lists), its labels are the mapping's keys sorted ascending (so only
declared routines ever appear as rows or columns), and cell
`(callee, caller)` is 1 exactly when the callee is a universe member that
occurs in the caller's raw callee list. -/
theorem claim_C3_assemble (rs : List (String × List String))
    (hnd : (rs.map Prod.fst).Nodup) :
    (assemble rs).cols = (assemble rs).rows ∧
    List.Sorted strLe (assemble rs).rows ∧
    (∀ x, x ∈ (assemble rs).rows ↔ x ∈ rs.map Prod.fst) ∧
    (∀ r c, (assemble rs).entry r c = 1 ↔
      r ∈ rs.map Prod.fst ∧ ∃ cs, rs.lookup c = some cs ∧ r ∈ cs) := by
  refine ⟨rfl, sortedUniverse_sorted rs, fun x => mem_sortedUniverse rs x, fun r c => ?_⟩
  show fillMatrix rs (sortedUniverse rs) r c = 1 ↔ _
  rw [fillMatrix_eq_one_iff]
  constructor
  · rintro ⟨p, hp, hc, hr, hu⟩
    refine ⟨(mem_sortedUniverse rs r).mp hu, p.2, ?_, hr⟩
    rw [lookup_eq_some_iff_mem rs hnd]
    rw [hc]
    exact hp
  · rintro ⟨hru, cs, hlook, hr⟩
    have hmem := (lookup_eq_some_iff_mem rs hnd c cs).mp hlook
    exact ⟨(c, cs), hmem, rfl, hr, (mem_sortedUniverse rs r).mpr hru⟩

/-- A concrete mapping for the C3 witness. -/
def rsW : List (String × List String) := [("b", ["a", "x"]), ("a", ["b"])]

/-- Witness for `claim_C3_assemble`: at a concrete mapping with distinct
keys, cell (`a`, `b`) is 1 because `a` is declared and occurs in `b`'s raw
list. -/
theorem claim_C3_witness :
    (rsW.map Prod.fst).Nodup ∧ (assemble rsW).entry "a" "b" = 1 :=
  ⟨by decide,
   ((claim_C3_assemble rsW (by decide)).2.2.2 "a" "b").mpr
     ⟨by decide, ["a", "x"], by decide, by decide⟩⟩

/-- Claim C4.  For every square 0/1 matrix, the two-phase reordering of the
code (rows first, then column sums computed on the row-permuted frame)
equals the independent-permutations computation described by the
specification, because a column's sum is invariant under a permutation of
the rows. -/
theorem claim_C4_two_phase (M : LabelledMatrix) (hsq : M.rows = M.cols)
    (h01 : ∀ r c, M.entry r c = 0 ∨ M.entry r c = 1) :
    reorder_by_sum M = reorderIndependent M := by
  have hperm : List.Perm (sortValuesDesc (M.rows.map fun r => (r, rowSum M r))) M.rows :=
    sortValuesDesc_tag_perm M.rows (fun r => rowSum M r)
  have hcols : M.cols.map
        (fun c => (c, colSumOn (sortValuesDesc (M.rows.map fun r => (r, rowSum M r))) M c))
      = M.cols.map (fun c => (c, colSumOn M.rows M c)) := by
    refine List.map_congr_left ?_
    intro c hc
    rw [colSumOn_perm _ _ M c hperm]
  unfold reorder_by_sum reorderIndependent
  exact LabelledMatrix.ext rfl (congrArg sortValuesDesc hcols) rfl

/-- A concrete square 0/1 matrix for the C4 witness (one edge: cell
(`b`, `a`) is 1). -/
def edgeMatrix : LabelledMatrix :=
  ⟨["a", "b"], ["a", "b"], fun r c => if r = "b" ∧ c = "a" then 1 else 0⟩

/-- Witness for `claim_C4_two_phase` at a concrete square 0/1 matrix. -/
theorem claim_C4_witness : reorder_by_sum edgeMatrix = reorderIndependent edgeMatrix :=
  claim_C4_two_phase edgeMatrix rfl (fun r c => by
    show (if r = "b" ∧ c = "a" then 1 else 0) = 0 ∨
         (if r = "b" ∧ c = "a" then 1 else 0) = 1
    by_cases h : r = "b" ∧ c = "a"
    · rw [if_pos h]
      exact Or.inr rfl
    · rw [if_neg h]
      exact Or.inl rfl)

/-- Claim C5.  For every scanned input: no routine's raw callee list
contains its own name (self-calls are filtered at record time), hence every
diagonal cell of the assembled matrix is 0; and an indirect two-cycle
(`a` calls `b` and `b` calls `a`, both declared) sets both off-diagonal
cells. -/
theorem claim_C5_self_and_cycles (contents : List String) :
    (∀ p ∈ scanContents contents, p.1 ∉ p.2) ∧
    (∀ r, (assemble (scanContents contents)).entry r r = 0) ∧
    (∀ a b la lb, a ≠ b →
      (a, la) ∈ scanContents contents → (b, lb) ∈ scanContents contents →
      b ∈ la → a ∈ lb →
      (assemble (scanContents contents)).entry a b = 1 ∧
      (assemble (scanContents contents)).entry b a = 1) := by
  have hsf := selfFree_scanContents contents
  refine ⟨hsf, ?_, ?_⟩
  · intro r
    rcases fillMatrix_zero_or_one (scanContents contents)
      (sortedUniverse (scanContents contents)) r r with h | h
    · exact h
    · exfalso
      rw [fillMatrix_eq_one_iff] at h
      obtain ⟨p, hp, hc, hr, _⟩ := h
      exact hsf p hp (hc ▸ hr)
  · intro a b la lb hab ha hb hbla halb
    have hau : a ∈ sortedUniverse (scanContents contents) :=
      (mem_sortedUniverse _ a).mpr (List.mem_map_of_mem Prod.fst ha)
    have hbu : b ∈ sortedUniverse (scanContents contents) :=
      (mem_sortedUniverse _ b).mpr (List.mem_map_of_mem Prod.fst hb)
    constructor
    · show fillMatrix _ _ a b = 1
      rw [fillMatrix_eq_one_iff]
      exact ⟨(b, lb), hb, rfl, halb, hau⟩
    · show fillMatrix _ _ b a = 1
      rw [fillMatrix_eq_one_iff]
      exact ⟨(a, la), ha, rfl, hbla, hbu⟩

/-- A file with two mutually recursive routines, for the C5 witness. -/
def mutualContents : List String :=
  ["subroutine aaa\ncall bbb(x)\nend subroutine\nsubroutine bbb\ncall aaa(y)\nend subroutine\n"]

/-- Witness for `claim_C5_self_and_cycles`: in the mutual-recursion file,
both off-diagonal cells of the two-cycle are 1. -/
theorem claim_C5_witness :
    (assemble (scanContents mutualContents)).entry "aaa" "bbb" = 1 ∧
    (assemble (scanContents mutualContents)).entry "bbb" "aaa" = 1 :=
  (claim_C5_self_and_cycles mutualContents).2.2 "aaa" "bbb" ["bbb"] ["aaa"]
    (by decide) (by decide) (by decide) (by decide) (by decide)

/-- A file declaring `foo` twice, with a call recorded under the first
declaration, for the C6 counterexample. -/
def dupContents : List String :=
  ["subroutine foo\ncall bar(x)\nend subroutine\nsubroutine foo\nend subroutine\n"]

/-- Claim C6, counterexample.  The claim states that on a duplicate
declaration the callee list is initialized empty *only if not already
present*, preserving callees recorded under an earlier declaration.  The
code does `all_routines[current_routine] = []` unconditionally: after the
file above, `foo`'s list is empty and the earlier-recorded callee `bar` is
gone. -/
theorem claim_C6_counterexample :
    (scanContents dupContents).lookup "foo" = some [] ∧
    ("foo", ["bar"]) ∉ scanContents dupContents := by
  decide

/-- Claim C6, amended.  On every routine-start line, the declared
(lowercased) name's dict entry is reset to the empty list unconditionally —
even when an entry with earlier-recorded callees is present — and then
receives exactly the start line's own call-pattern captures other than the
name itself; the earlier content does not survive. -/
theorem claim_C6_amended (st : ScanState) (line : String) (name : String)
    (prior : List String) (hs : matchRoutineStart line = some name)
    (hp : st.routines.lookup (pyLower name) = some prior) :
    ((lineStep st line).routines).lookup (pyLower name)
      = some (((findCalls line).map pyLower).filter (fun c => c != pyLower name)) :=
  lineStep_start_lookup st line name hs

/-- The scanner state used for the C6 witness: `foo` already has recorded
callee `bar`. -/
def w6State : ScanState := ⟨none, [("foo", ["bar"])]⟩

/-- Witness for `claim_C6_amended`: re-declaring `foo` resets its list to
empty, discarding `bar`. -/
theorem claim_C6_witness :
    ((lineStep w6State "subroutine foo").routines).lookup (pyLower "foo") = some [] :=
  (claim_C6_amended w6State "subroutine foo" "foo" ["bar"] (by decide) (by decide)).trans
    (by decide)

/-- Claim C7.  The claim states `reorder_by_sum` is idempotent on the axis
orders.  It is not: on the all-zero matrix the first application gives row
order `["b", "a"]` and the second gives `["a", "b"]` again (each descending
sort reverses the tie group), so reorder(reorder(M)) differs from
reorder(M). -/
theorem claim_C7_not_idempotent :
    (reorder_by_sum (reorder_by_sum tieMatrix)).rows = ["a", "b"] ∧
    (reorder_by_sum tieMatrix).rows = ["b", "a"] ∧
    (reorder_by_sum (reorder_by_sum tieMatrix)).rows ≠ (reorder_by_sum tieMatrix).rows := by
  decide

/-- Claim C8.  On a missing directory, the inventory extractor reports and
returns an empty table (`check_object.py` checks `os.path.exists`), but the
adjacency-matrix generator has no such check: `os.listdir` raises
`FileNotFoundError` (modelled as `Except.error`), so it does not yield an
empty matrix as the claim states. -/
theorem claim_C8_missing_directory :
    generate_fortran_matrix none = Except.error () ∧
    scan_fortran_directory none = [] :=
  ⟨rfl, rfl⟩

/-- The inventory and matrix used for the C9 counterexample: the matrix row
`zeta` has no inventory record. -/
def inv9 : List InventoryRecord := [⟨"beta", "mymod", "subroutine"⟩]

/-- A reordered matrix with single row label `zeta`, for C9. -/
def M9 : LabelledMatrix := ⟨["zeta"], ["zeta"], fun _ _ => 0⟩

/-- Claim C9, counterexample.  The claim states that a matrix row with no
matching inventory record is annotated with `module_name = "External"` and
an unknown kind.  The pandas left join instead fills missing values
(`NaN`, modelled as `none`): row `zeta` gets `(none, none)`, not the
sentinel `"External"`. -/
theorem claim_C9_counterexample :
    ("zeta", some "External", (none : Option String), (0 : Nat)) ∉ composeExtended M9 inv9 ∧
    ("zeta", (none : Option String), (none : Option String), (0 : Nat)) ∈
      composeExtended M9 inv9 := by
  decide

/-- Claim C9, amended.  Every matrix row whose routine name has no matching
inventory record is annotated with missing values (`NaN`, modelled as
`none`) for `module_name` and `type`; the left join is total, so the run
never aborts. -/
theorem claim_C9_amended (M : LabelledMatrix) (inv : List InventoryRecord) (r : String)
    (hr : r ∈ M.rows) (hmiss : ∀ rec ∈ inv, rec.obj_name ≠ r) :
    (r, (none : Option String), (none : Option String), rowSum M r) ∈
      composeExtended M inv := by
  unfold composeExtended
  have hfind : inv.find? (fun rec => rec.obj_name = r) = none := by
    rw [List.find?_eq_none]
    intro x hx
    simp [hmiss x hx]
  have hann : annotateRow inv r = (none, none) := by
    unfold annotateRow
    rw [hfind]
  refine List.mem_map.mpr ⟨r, hr, ?_⟩
  rw [hann]

/-- Witness for `claim_C9_amended` at the concrete `M9` / `inv9`. -/
theorem claim_C9_witness :
    ("zeta", (none : Option String), (none : Option String), rowSum M9 "zeta") ∈
      composeExtended M9 inv9 :=
  claim_C9_amended M9 inv9 "zeta" (by decide) (by decide)

/-- A directory containing one `.F90` file (uppercase extension) declaring
routine `foo`, for C10. -/
def dirMixed : Directory :=
  some [("solver.F90", "subroutine foo\nend subroutine\n")]

/-- Claim C10.  The inventory extractor accepts `.f90`, `.F90` and `.f95`
file names while the adjacency-matrix generator accepts only `.f90`
(case-sensitive `str.endswith`): for the directory above, `foo` appears in
the inventory table but the matrix universe is empty, so `foo` is absent
from the adjacency matrix. -/
theorem claim_C10_extension_mismatch :
    scan_fortran_directory dirMixed = [⟨"foo", "External", "subroutine"⟩] ∧
    (generate_fortran_matrix dirMixed).toOption.map LabelledMatrix.rows = some [] := by
  decide
